import Mathlib

/-!
Shallow embedding of the TwoGroupWordCloudModule source (CloudModule.py).

Words and texts are modelled as `List Char`; Python floats are modelled as
rationals (`ℚ`); Python exceptions are modelled with the `CloudError`
inductive and `Except`/`Option` results.  The ASCII fragment of Python's
regex class `\w` (word characters) and of `str.lower`/`str.isdigit` is
modelled with Lean's ASCII character primitives, matching the inputs used
throughout the specification.
-/

/-- The apostrophe character (code point 39). -/
def apos : Char := Char.ofNat 39

/-- A character matched by the regex class `\w`: alphanumeric or underscore. -/
def isWordChar (c : Char) : Bool := c.isAlphanum || c == '_'

/-- A character matched inside a token by the regex `\w[\w']*`:
a word character or an apostrophe. -/
def isTokChar (c : Char) : Bool := isWordChar c || c == apos

/-- Worker for `findall`: scans the text left to right; `acc` holds the
characters of the token currently being matched, in reverse. When `inTok`
is `false`, `acc` is `[]`. -/
def findallAux : Bool → List Char → List Char → List (List Char)
  | false, _, [] => []
  | true, acc, [] => [acc.reverse]
  | false, _, c :: rest =>
    if isWordChar c then findallAux true [c] rest else findallAux false [] rest
  | true, acc, c :: rest =>
    if isTokChar c then findallAux true (c :: acc) rest
    else acc.reverse :: findallAux false [] rest

/-- Model of `re.findall(r"\w[\w']*", text)`: the maximal-munch matches of
the pattern "a word character followed by word characters or apostrophes",
in order of appearance. -/
def findall (l : List Char) : List (List Char) := findallAux false [] l

/-- Model of `word.lower().endswith("'s")`: the lowercased word ends with an
apostrophe followed by `s`. -/
def endsPossessive (w : List Char) : Bool :=
  match (w.map Char.toLower).reverse with
  | s :: a :: _ => s == 's' && a == apos
  | _ => false

/-- Model of `word[:-2] if word.lower().endswith("'s") else word`. -/
def stripPossessive (w : List Char) : List Char :=
  if endsPossessive w then w.take (w.length - 2) else w

/-- Model of Python's `str.isdigit` on ASCII strings: non-empty and made of
decimal digits only. -/
def pyIsDigit (w : List Char) : Bool := !w.isEmpty && w.all Char.isDigit

/-- Model of `preprocess_text`: find the regex tokens, strip trailing `'s`,
drop all-digit tokens, join with single spaces, lowercase the result. -/
def preprocess_text (t : List Char) : List Char :=
  let words := findall t
  let words := words.map stripPossessive
  let words := words.filter (fun w => !pyIsDigit w)
  (List.intercalate [' '] words).map Char.toLower

/-- A possible match of the regex `\w[\w']*`: non-empty, its first character a
word character and the rest token characters. Every token `findall` returns
has this shape. -/
def goodToken (w : List Char) : Prop :=
  ∃ c t, w = c :: t ∧ isWordChar c = true ∧ ∀ x ∈ t, isTokChar x = true

/-- The normalized token sequence described by the specification: the regex
matches with trailing `'s` stripped, all-digit tokens discarded, and each
token lowercased. -/
def normTokens (t : List Char) : List (List Char) :=
  (((findall t).map stripPossessive).filter (fun w => !pyIsDigit w)).map (List.map Char.toLower)

/-- The specification's description of the normalizer, as stated in its
contract: "a whitespace-joined string of normalized tokens using a
word-character regex, stripping trailing `'s`, discarding all-digit tokens,
lowercasing the result" — here with the lowercasing applied token by token
before joining. -/
def preprocessSpec (t : List Char) : List Char :=
  List.intercalate [' '] (normTokens t)

/-- Model of Python's `text.split(' ')`: split at every space, keeping empty
pieces; on the empty string it returns `[[]]` (Python `''.split(' ') == ['']`). -/
def splitSpace : List Char → List (List Char)
  | [] => [[]]
  | c :: rest =>
    if c = ' ' then [] :: splitSpace rest
    else
      match splitSpace rest with
      | [] => [[c]]
      | w :: ws => (c :: w) :: ws

/-- Model of the normalized frequency table (`Counter` divided by the group
size, wrapped in `defaultdict(float, ·)`): a word absent from the group has
frequency `0` without any division being performed. -/
def normFreq (ws : List (List Char)) (w : List Char) : ℚ :=
  if ws.count w = 0 then 0 else (ws.count w : ℚ) / (ws.length : ℚ)

/-- Model of the score computed for a word of the union vocabulary:
`group_1_score / (group_1_score + group_2_score)`. -/
def wordScore (ws1 ws2 : List (List Char)) (w : List Char) : ℚ :=
  normFreq ws1 w / (normFreq ws1 w + normFreq ws2 w)

/-- Model of the `word_scores` dict: one entry per word of
`set(group_1_words).union(group_2_words)`, mapping it to its score. -/
def buildWordScores (ws1 ws2 : List (List Char)) : List (List Char × ℚ) :=
  ((ws1 ++ ws2).dedup).map (fun w => (w, wordScore ws1 ws2 w))

/-- The exceptions raised by `generateTwoGroupWordCloud` and
`__choose_color__`, in the order they appear in the source. `indexErr`
models the `IndexError` Python raises on `thresholds[-1]` when the
thresholds list is empty. -/
inductive CloudError where
  | notSorted
  | indexErr
  | lastNotOne
  | lenMismatch
  | noScore
  | invalidScore
  deriving DecidableEq, Repr

/-- Model of `all(thresholds[i] <= thresholds[i+1] for i in range(len(thresholds) - 1))`. -/
def pairwiseSorted : List ℚ → Bool
  | a :: b :: rest => decide (a ≤ b) && pairwiseSorted (b :: rest)
  | _ => true

/-- Model of the input-validation block of `generateTwoGroupWordCloud`:
sortedness check, then last-threshold check (an `IndexError` when the list
is empty), then the length comparison with `colors`. -/
def validateThresholds (thresholds : List ℚ) (colors : List String) : Option CloudError :=
  if pairwiseSorted thresholds = false then some .notSorted
  else
    match thresholds.getLast? with
    | none => some .indexErr
    | some t =>
      if t = 1 then
        if thresholds.length = colors.length then none else some .lenMismatch
      else some .lastNotOne

/-- Model of the scanning loop of `__choose_color__`:
`for t, c in zip(thresholds, colors): if score <= t: return c`, falling
through to the final `raise`. -/
def chooseColorAux (score : ℚ) : List (ℚ × String) → Except CloudError String
  | [] => .error .invalidScore
  | (t, c) :: rest => if score ≤ t then .ok c else chooseColorAux score rest

/-- Model of `__choose_color__` as produced by `__create_choose_color_func__`:
look the word up in the scores dict (raising when absent), then scan the
threshold/color pairs. -/
def chooseColor (scores : List (List Char × ℚ)) (thresholds : List ℚ)
    (colors : List String) (word : List Char) : Except CloudError String :=
  match scores.lookup word with
  | none => .error .noScore
  | some score => chooseColorAux score (thresholds.zip colors)

/-- Model of `generateTwoGroupWordCloud` up to the hand-off to the external
renderer: validate, preprocess both texts, split on spaces, and return the
combined text together with the word-scores dict that the color function
closes over. -/
def generateTwoGroupWordCloud (t1 t2 : List Char) (thresholds : List ℚ)
    (colors : List String) : Except CloudError (List Char × List (List Char × ℚ)) :=
  match validateThresholds thresholds colors with
  | some e => .error e
  | none =>
    let p1 := preprocess_text t1
    let p2 := preprocess_text t2
    let ws1 := splitSpace p1
    let ws2 := splitSpace p2
    .ok (p1 ++ ' ' :: p2, buildWordScores ws1 ws2)

example : preprocess_text "hello".data = "hello".data := by decide
example : preprocess_text "42 cats".data = "cats".data := by decide
example : preprocess_text ['D', 'o', 'g', apos, 's'] = ['d', 'o', 'g'] := by decide
example : splitSpace "a  b".data = ["a".data, [], "b".data] := by decide

/-! ### Frequency and score lemmas -/

theorem normFreq_nonneg (ws : List (List Char)) (w : List Char) : 0 ≤ normFreq ws w := by
  unfold normFreq
  split
  · exact le_refl 0
  · positivity

theorem normFreq_pos_of_mem (ws : List (List Char)) (w : List Char) (h : w ∈ ws) :
    0 < normFreq ws w := by
  have hc : 0 < ws.count w := List.count_pos_iff.mpr h
  have hl : 0 < ws.length := List.length_pos.mpr (List.ne_nil_of_mem h)
  unfold normFreq
  rw [if_neg (by omega)]
  apply div_pos
  · exact_mod_cast hc
  · exact_mod_cast hl

theorem denom_pos (ws1 ws2 : List (List Char)) (w : List Char)
    (h : w ∈ ws1 ∨ w ∈ ws2) : 0 < normFreq ws1 w + normFreq ws2 w := by
  rcases h with h | h
  · exact add_pos_of_pos_of_nonneg (normFreq_pos_of_mem ws1 w h) (normFreq_nonneg ws2 w)
  · exact add_pos_of_nonneg_of_pos (normFreq_nonneg ws1 w) (normFreq_pos_of_mem ws2 w h)

theorem wordScore_mem_Icc (ws1 ws2 : List (List Char)) (w : List Char)
    (h : w ∈ ws1 ∨ w ∈ ws2) : 0 ≤ wordScore ws1 ws2 w ∧ wordScore ws1 ws2 w ≤ 1 := by
  have hd := denom_pos ws1 ws2 w h
  unfold wordScore
  constructor
  · exact div_nonneg (normFreq_nonneg ws1 w) (le_of_lt hd)
  · rw [div_le_one hd]
    exact le_add_of_nonneg_right (normFreq_nonneg ws2 w)

theorem lookup_map_pair (f : List Char → ℚ) (l : List (List Char)) (w : List Char) :
    (l.map (fun x => (x, f x))).lookup w = if w ∈ l then some (f w) else none := by
  induction l with
  | nil => simp [List.lookup]
  | cons x xs ih =>
    by_cases hwx : w = x
    · simp [List.lookup, hwx]
    · have hbeq : (w == x) = false := by
        simp [beq_eq_false_iff_ne]
        exact hwx
      simp [List.lookup, hbeq, ih, hwx]

theorem buildWordScores_lookup (ws1 ws2 : List (List Char)) (w : List Char) :
    (buildWordScores ws1 ws2).lookup w
      = if w ∈ ws1 ∨ w ∈ ws2 then some (wordScore ws1 ws2 w) else none := by
  unfold buildWordScores
  rw [lookup_map_pair]
  simp [List.mem_dedup, List.mem_append]

/-! ### Claims C2, C7, C9, C10 -/

/-- C7: the score computation never divides by zero: any word of the union of
the two token lists has a strictly positive denominator `f1 + f2`, because it
occurs in one of the two lists and so has positive normalized frequency there. -/
theorem score_denominator_pos (ws1 ws2 : List (List Char)) (w : List Char)
    (h : w ∈ ws1 ∨ w ∈ ws2) :
    0 < normFreq ws1 w + normFreq ws2 w
    ∧ (w ∈ ws1 → 0 < normFreq ws1 w) ∧ (w ∈ ws2 → 0 < normFreq ws2 w) :=
  ⟨denom_pos ws1 ws2 w h, normFreq_pos_of_mem ws1 w, normFreq_pos_of_mem ws2 w⟩

/-- Witness for C7 at the one-word lists `["a"]` and `[]`. -/
theorem score_denominator_pos_witness :
    ("a".data ∈ ["a".data] ∨ "a".data ∈ ([] : List (List Char)))
    ∧ (0 < normFreq ["a".data] "a".data + normFreq [] "a".data
        ∧ ("a".data ∈ ["a".data] → 0 < normFreq ["a".data] "a".data)
        ∧ ("a".data ∈ ([] : List (List Char)) → 0 < normFreq [] "a".data)) :=
  ⟨Or.inl (by decide), score_denominator_pos ["a".data] [] "a".data (Or.inl (by decide))⟩

/-- C2 counterexample: on the corpora `"hello"` and `"world"`, the token
`"hello"` is in the union vocabulary but its score is `1`, which does not lie
strictly inside the open interval `(0, 1)`. -/
theorem score_open_interval_counterexample :
    ("hello".data ∈ splitSpace (preprocess_text "hello".data)
      ∨ "hello".data ∈ splitSpace (preprocess_text "world".data))
    ∧ wordScore (splitSpace (preprocess_text "hello".data))
        (splitSpace (preprocess_text "world".data)) "hello".data = 1
    ∧ ¬(0 < wordScore (splitSpace (preprocess_text "hello".data))
            (splitSpace (preprocess_text "world".data)) "hello".data
        ∧ wordScore (splitSpace (preprocess_text "hello".data))
            (splitSpace (preprocess_text "world".data)) "hello".data < 1) := by
  have h1 : splitSpace (preprocess_text "hello".data) = ["hello".data] := by decide
  have h2 : splitSpace (preprocess_text "world".data) = ["world".data] := by decide
  have hc1 : (["hello".data] : List (List Char)).count "hello".data = 1 := by decide
  have hc2 : (["world".data] : List (List Char)).count "hello".data = 0 := by decide
  have hscore : wordScore (splitSpace (preprocess_text "hello".data))
      (splitSpace (preprocess_text "world".data)) "hello".data = 1 := by
    rw [h1, h2]
    unfold wordScore normFreq
    rw [hc1, hc2]
    norm_num
  refine ⟨Or.inl (by decide), hscore, ?_⟩
  rw [hscore]
  simp

/-- C2 amended: every token of the union of the two vocabularies receives the
score `f1 / (f1 + f2)`, which lies in the closed interval `[0, 1]` (the
endpoints are attained by words exclusive to one group). -/
theorem score_in_closed_unit_interval (ws1 ws2 : List (List Char)) (w : List Char)
    (h : w ∈ ws1 ∨ w ∈ ws2) :
    0 ≤ wordScore ws1 ws2 w ∧ wordScore ws1 ws2 w ≤ 1 :=
  wordScore_mem_Icc ws1 ws2 w h

/-- Witness for the amended C2. -/
theorem score_in_closed_unit_interval_witness :
    ("a".data ∈ ["a".data] ∨ "a".data ∈ ([] : List (List Char)))
    ∧ (0 ≤ wordScore ["a".data] [] "a".data ∧ wordScore ["a".data] [] "a".data ≤ 1) :=
  ⟨Or.inl (by decide), score_in_closed_unit_interval ["a".data] [] "a".data (Or.inl (by decide))⟩

/-- C9: when both groups have the same token list, every token of the shared
vocabulary scores exactly `1/2`. -/
theorem identical_corpora_half (t w : List Char)
    (h : w ∈ splitSpace (preprocess_text t)) :
    wordScore (splitSpace (preprocess_text t)) (splitSpace (preprocess_text t)) w = 1/2 := by
  have hf : 0 < normFreq (splitSpace (preprocess_text t)) w :=
    normFreq_pos_of_mem _ _ h
  unfold wordScore
  rw [div_eq_iff (by linarith)]
  ring

/-- Witness for C9 on the corpus `"cat cat dog"`. -/
theorem identical_corpora_half_witness :
    "cat".data ∈ splitSpace (preprocess_text "cat cat dog".data)
    ∧ wordScore (splitSpace (preprocess_text "cat cat dog".data))
        (splitSpace (preprocess_text "cat cat dog".data)) "cat".data = 1/2 :=
  ⟨by decide, identical_corpora_half "cat cat dog".data "cat".data (by decide)⟩

/-- C10: when a group's text normalizes to the empty string, splitting on a
space yields the single empty-string token, which gets normalized frequency
`1`, enters the word-scores dict, and has a positive score denominator. -/
theorem empty_text_empty_token_score (t1 t2 : List Char) (h : preprocess_text t1 = []) :
    splitSpace (preprocess_text t1) = [[]]
    ∧ normFreq (splitSpace (preprocess_text t1)) [] = 1
    ∧ (buildWordScores (splitSpace (preprocess_text t1)) (splitSpace (preprocess_text t2))).lookup []
        = some (wordScore (splitSpace (preprocess_text t1)) (splitSpace (preprocess_text t2)) [])
    ∧ 0 < normFreq (splitSpace (preprocess_text t1)) []
        + normFreq (splitSpace (preprocess_text t2)) [] := by
  rw [h]
  have hs : splitSpace ([] : List Char) = [[]] := rfl
  have hmem : ([] : List Char) ∈ splitSpace ([] : List Char) := by decide
  have hfreq : normFreq (splitSpace ([] : List Char)) [] = 1 := by
    rw [hs]
    unfold normFreq
    norm_num
  refine ⟨hs, hfreq, ?_, ?_⟩
  · rw [buildWordScores_lookup]
    rw [if_pos (Or.inl hmem)]
  · exact denom_pos _ _ _ (Or.inl hmem)

/-! ### Validation lemmas and claim C3 -/

theorem pairwiseSorted_iff : ∀ l : List ℚ, pairwiseSorted l = true ↔ List.Chain' (· ≤ ·) l
  | [] => by simp [pairwiseSorted]
  | [a] => by simp [pairwiseSorted]
  | a :: b :: rest => by
    have ih := pairwiseSorted_iff (b :: rest)
    simp [pairwiseSorted, List.chain'_cons, ih]

theorem validateThresholds_none_iff (th : List ℚ) (cs : List String) :
    validateThresholds th cs = none
      ↔ (List.Chain' (· ≤ ·) th ∧ th.getLast? = some 1 ∧ th.length = cs.length) := by
  unfold validateThresholds
  cases hb : pairwiseSorted th with
  | false =>
    have hch : ¬ List.Chain' (· ≤ ·) th := by
      rw [← pairwiseSorted_iff, hb]
      simp
    simp [hch]
  | true =>
    have hch : List.Chain' (· ≤ ·) th := (pairwiseSorted_iff th).mp hb
    simp only [Bool.true_eq_false, if_false]
    cases hL : th.getLast? with
    | none => simp [hch]
    | some t =>
      by_cases ht : t = 1
      · subst ht
        by_cases hlen : th.length = cs.length <;> simp [hlen, hch]
      · simp [ht, hch]

/-- C3: validation passes exactly when the thresholds are non-decreasing, the
final threshold equals `1`, and the list has the same length as the colors
list; any failure is reported before any scoring is performed (the pipeline
stops with that error). -/
theorem validate_thresholds_iff (th : List ℚ) (cs : List String) :
    (validateThresholds th cs = none
      ↔ (List.Chain' (· ≤ ·) th ∧ th.getLast? = some 1 ∧ th.length = cs.length))
    ∧ ∀ e t1 t2, validateThresholds th cs = some e →
        generateTwoGroupWordCloud t1 t2 th cs = .error e := by
  refine ⟨validateThresholds_none_iff th cs, ?_⟩
  intro e t1 t2 he
  unfold generateTwoGroupWordCloud
  rw [he]

/-- Witness for C3: a passing pair and a failing (unsorted) pair. -/
theorem validate_thresholds_iff_witness :
    validateThresholds [(1 : ℚ)] ["red"] = none
    ∧ generateTwoGroupWordCloud "a".data "b".data [(2 : ℚ), 1] ["x", "y"]
        = .error .notSorted :=
  ⟨(validate_thresholds_iff [(1 : ℚ)] ["red"]).1.mpr
      ⟨by simp, by simp, by simp⟩,
    (validate_thresholds_iff [(2 : ℚ), 1] ["x", "y"]).2 .notSorted
      "a".data "b".data (by decide)⟩

/-! ### Color selection lemmas and claims C1, C8, C4 -/

theorem chooseColorAux_spec (s : ℚ) :
    ∀ l : List (ℚ × String), (∃ p ∈ l, s ≤ p.1) →
      ∃ j : ℕ, ∃ hj : j < l.length,
        s ≤ (l.get ⟨j, hj⟩).1
        ∧ (∀ i, ∀ hi : i < l.length, i < j → (l.get ⟨i, hi⟩).1 < s)
        ∧ chooseColorAux s l = .ok (l.get ⟨j, hj⟩).2
  | [], h => by simp at h
  | (t, c) :: rest, h => by
    by_cases hst : s ≤ t
    · refine ⟨0, by simp, by simpa, ?_, by simp [chooseColorAux, hst]⟩
      intro i hi hlt
      omega
    · have hrest : ∃ p ∈ rest, s ≤ p.1 := by
        rcases h with ⟨p, hp, hsp⟩
        rcases List.mem_cons.mp hp with rfl | hmem
        · exact absurd hsp hst
        · exact ⟨p, hmem, hsp⟩
      obtain ⟨j, hj, h1, h2, h3⟩ := chooseColorAux_spec s rest hrest
      refine ⟨j + 1, by simpa using Nat.succ_lt_succ hj, by simpa using h1, ?_, ?_⟩
      · intro i hi hlt
        cases i with
        | zero => simpa using lt_of_not_le hst
        | succ i' =>
          have := h2 i' (by simpa using hi) (by omega)
          simpa using this
      · simp [chooseColorAux, hst, h3]

theorem exists_threshold_ge (th : List ℚ) (cs : List String) (s : ℚ)
    (hlast : th.getLast? = some 1) (hlen : th.length = cs.length) (hs : s ≤ 1) :
    ∃ p ∈ th.zip cs, s ≤ p.1 := by
  have hmem : (1 : ℚ) ∈ th := List.mem_of_getLast?_eq_some hlast
  obtain ⟨i, hi⟩ := List.mem_iff_get.mp hmem
  have hzi : (i : ℕ) < (th.zip cs).length := by
    rw [List.length_zip, ← hlen, Nat.min_self]
    exact i.isLt
  refine ⟨(th.zip cs).get ⟨i, hzi⟩, List.get_mem _ _ _, ?_⟩
  have : (th.zip cs).get ⟨i, hzi⟩ = (th.get i, cs.get ⟨i, by omega⟩) := by
    simp [List.get_eq_getElem, List.getElem_zip]
  rw [this, hi]
  exact hs

/-- C8: the defensive "no threshold matched" branch is dead: whenever a word
has a score at most `1` in the scores dict and the thresholds/colors pair
passed validation, the scan finds a threshold at least the score, so
`__choose_color__` returns a color and never reaches the final raise. -/
theorem range_error_unreachable (scores : List (List Char × ℚ)) (th : List ℚ)
    (cs : List String) (w : List Char) (s : ℚ)
    (hlook : scores.lookup w = some s) (hs : s ≤ 1)
    (hv : validateThresholds th cs = none) :
    (∃ c, chooseColor scores th cs w = .ok c)
    ∧ chooseColor scores th cs w ≠ .error .invalidScore := by
  obtain ⟨-, hlast, hlen⟩ := (validateThresholds_none_iff th cs).mp hv
  obtain ⟨j, hj, -, -, hch⟩ :=
    chooseColorAux_spec s (th.zip cs) (exists_threshold_ge th cs s hlast hlen hs)
  have hcc : chooseColor scores th cs w = .ok ((th.zip cs).get ⟨j, hj⟩).2 := by
    unfold chooseColor
    rw [hlook]
    exact hch
  exact ⟨⟨_, hcc⟩, by rw [hcc]; simp⟩

/-- Witness for C8. -/
theorem range_error_unreachable_witness :
    ([("a".data, (0 : ℚ))].lookup "a".data = some 0
      ∧ (0 : ℚ) ≤ 1 ∧ validateThresholds [(1 : ℚ)] ["red"] = none)
    ∧ ((∃ c, chooseColor [("a".data, (0 : ℚ))] [(1 : ℚ)] ["red"] "a".data = .ok c)
      ∧ chooseColor [("a".data, (0 : ℚ))] [(1 : ℚ)] ["red"] "a".data ≠ .error .invalidScore) :=
  ⟨⟨by decide, by decide, by decide⟩,
    range_error_unreachable [("a".data, (0 : ℚ))] [(1 : ℚ)] ["red"] "a".data 0
      (by decide) (by decide) (by decide)⟩

/-- C1: with a validated thresholds/colors pair, `__choose_color__` raises the
lookup error exactly on words outside the scores dict, and on words of the
dict it returns the color paired with the first threshold that is at least
the word's score, scanning in list (ascending) order. -/
theorem choose_color_first_threshold (ws1 ws2 : List (List Char)) (th : List ℚ)
    (cs : List String) (w : List Char) (hv : validateThresholds th cs = none) :
    (¬(w ∈ ws1 ∨ w ∈ ws2) →
      chooseColor (buildWordScores ws1 ws2) th cs w = .error .noScore)
    ∧ ((w ∈ ws1 ∨ w ∈ ws2) →
      ∃ j, ∃ hjt : j < th.length, ∃ hjc : j < cs.length,
        wordScore ws1 ws2 w ≤ th.get ⟨j, hjt⟩
        ∧ (∀ i, ∀ hi : i < th.length, i < j → th.get ⟨i, hi⟩ < wordScore ws1 ws2 w)
        ∧ chooseColor (buildWordScores ws1 ws2) th cs w = .ok (cs.get ⟨j, hjc⟩)) := by
  obtain ⟨-, hlast, hlen⟩ := (validateThresholds_none_iff th cs).mp hv
  constructor
  · intro hmem
    unfold chooseColor
    rw [buildWordScores_lookup, if_neg hmem]
  · intro hmem
    have hs1 := (wordScore_mem_Icc ws1 ws2 w hmem).2
    obtain ⟨j, hj, hle, hfirst, hch⟩ :=
      chooseColorAux_spec (wordScore ws1 ws2 w) (th.zip cs)
        (exists_threshold_ge th cs _ hlast hlen hs1)
    have hjt : j < th.length := by
      rw [List.length_zip, ← hlen, Nat.min_self] at hj
      exact hj
    have hjc : j < cs.length := by omega
    have hget : (th.zip cs).get ⟨j, hj⟩ = (th.get ⟨j, hjt⟩, cs.get ⟨j, hjc⟩) := by
      simp [List.get_eq_getElem, List.getElem_zip]
    refine ⟨j, hjt, hjc, ?_, ?_, ?_⟩
    · rw [hget] at hle
      exact hle
    · intro i hi hij
      have hzi : i < (th.zip cs).length := by
        rw [List.length_zip, ← hlen, Nat.min_self]
        omega
      have := hfirst i hzi hij
      have hgeti : (th.zip cs).get ⟨i, hzi⟩ = (th.get ⟨i, hi⟩, cs.get ⟨i, by omega⟩) := by
        simp [List.get_eq_getElem, List.getElem_zip]
      rw [hgeti] at this
      exact this
    · unfold chooseColor
      rw [buildWordScores_lookup, if_pos hmem]
      rw [hget] at hch
      exact hch

/-- Witness for C1. -/
theorem choose_color_first_threshold_witness :
    validateThresholds [(1 : ℚ)] ["red"] = none
    ∧ ((¬("a".data ∈ ["a".data] ∨ "a".data ∈ ([] : List (List Char))) →
        chooseColor (buildWordScores ["a".data] []) [(1 : ℚ)] ["red"] "a".data
          = .error .noScore)
      ∧ (("a".data ∈ ["a".data] ∨ "a".data ∈ ([] : List (List Char))) →
        ∃ j, ∃ hjt : j < [(1 : ℚ)].length, ∃ hjc : j < ["red"].length,
          wordScore ["a".data] [] "a".data ≤ [(1 : ℚ)].get ⟨j, hjt⟩
          ∧ (∀ i, ∀ hi : i < [(1 : ℚ)].length, i < j →
              [(1 : ℚ)].get ⟨i, hi⟩ < wordScore ["a".data] [] "a".data)
          ∧ chooseColor (buildWordScores ["a".data] []) [(1 : ℚ)] ["red"] "a".data
              = .ok (["red"].get ⟨j, hjc⟩))) := by
  refine ⟨by decide, ?_⟩
  exact choose_color_first_threshold ["a".data] [] [(1 : ℚ)] ["red"] "a".data (by decide)

/-- C4: on the spec's example inputs the word `"hello"` scores `1` and is
colored `"red"`, while `"world"` scores `0` and is colored `"blue"`. -/
theorem example_hello_world_colors :
    ∃ out : List Char × List (List Char × ℚ),
      generateTwoGroupWordCloud "hello".data "world".data [1/2, 1] ["blue", "red"] = .ok out
      ∧ out.2.lookup "hello".data = some 1
      ∧ chooseColor out.2 [1/2, 1] ["blue", "red"] "hello".data = .ok "red"
      ∧ out.2.lookup "world".data = some 0
      ∧ chooseColor out.2 [1/2, 1] ["blue", "red"] "world".data = .ok "blue" := by
  have hv : validateThresholds [1/2, 1] ["blue", "red"] = none := by
    apply (validateThresholds_none_iff _ _).mpr
    refine ⟨?_, rfl, rfl⟩
    simp [List.chain'_cons]
    norm_num
  have hp1 : preprocess_text "hello".data = "hello".data := by decide
  have hp2 : preprocess_text "world".data = "world".data := by decide
  have hsplit1 : splitSpace "hello".data = ["hello".data] := by decide
  have hsplit2 : splitSpace "world".data = ["world".data] := by decide
  have hsc1 : wordScore ["hello".data] ["world".data] "hello".data = 1 := by
    unfold wordScore normFreq
    have hc1 : (["hello".data] : List (List Char)).count "hello".data = 1 := by decide
    have hc2 : (["world".data] : List (List Char)).count "hello".data = 0 := by decide
    rw [hc1, hc2]
    norm_num
  have hsc2 : wordScore ["hello".data] ["world".data] "world".data = 0 := by
    unfold wordScore normFreq
    have hc1 : (["hello".data] : List (List Char)).count "world".data = 0 := by decide
    have hc2 : (["world".data] : List (List Char)).count "world".data = 1 := by decide
    rw [hc1, hc2]
    norm_num
  have hzip : ([1/2, 1] : List ℚ).zip ["blue", "red"] = [(1/2, "blue"), (1, "red")] := by
    simp [List.zip]
  have hgen : generateTwoGroupWordCloud "hello".data "world".data [1/2, 1] ["blue", "red"]
      = .ok (preprocess_text "hello".data ++ ' ' :: preprocess_text "world".data,
          buildWordScores (splitSpace (preprocess_text "hello".data))
            (splitSpace (preprocess_text "world".data))) := by
    unfold generateTwoGroupWordCloud
    rw [hv]
  rw [hp1, hp2, hsplit1, hsplit2] at hgen
  have hcomb : "hello".data ++ ' ' :: "world".data = "hello world".data := by decide
  rw [hcomb] at hgen
  have hlook1 : (buildWordScores ["hello".data] ["world".data]).lookup "hello".data
      = some 1 := by
    rw [buildWordScores_lookup, if_pos (Or.inl (by decide)), hsc1]
  have hlook2 : (buildWordScores ["hello".data] ["world".data]).lookup "world".data
      = some 0 := by
    rw [buildWordScores_lookup, if_pos (Or.inr (by decide)), hsc2]
  refine ⟨("hello world".data, buildWordScores ["hello".data] ["world".data]),
    hgen, hlook1, ?_, hlook2, ?_⟩
  · unfold chooseColor
    rw [hlook1, hzip]
    norm_num [chooseColorAux]
  · unfold chooseColor
    rw [hlook2, hzip]
    norm_num [chooseColorAux]

/-- Witness for C10 with a first text that normalizes to nothing. -/
theorem empty_text_empty_token_score_witness :
    preprocess_text "!!!".data = []
    ∧ (splitSpace (preprocess_text "!!!".data) = [[]]
      ∧ normFreq (splitSpace (preprocess_text "!!!".data)) [] = 1
      ∧ (buildWordScores (splitSpace (preprocess_text "!!!".data))
          (splitSpace (preprocess_text "world".data))).lookup []
          = some (wordScore (splitSpace (preprocess_text "!!!".data))
              (splitSpace (preprocess_text "world".data)) [])
      ∧ 0 < normFreq (splitSpace (preprocess_text "!!!".data)) []
          + normFreq (splitSpace (preprocess_text "world".data)) []) :=
  ⟨by decide, empty_text_empty_token_score "!!!".data "world".data (by decide)⟩

/-! ### ASCII character lemmas for the normalizer -/

theorem char_toNat_ofNat_valid (m : Nat) (h : m.isValidChar) :
    (Char.ofNat m).toNat = m := by
  simp [Char.ofNat, h]
  rfl

theorem toLower_eq_of_not_upper (c : Char) (h : ¬(65 ≤ c.toNat ∧ c.toNat ≤ 90)) :
    Char.toLower c = c := by
  simp [Char.toLower, h]

theorem toNat_toLower_of_upper (c : Char) (h : 65 ≤ c.toNat ∧ c.toNat ≤ 90) :
    (Char.toLower c).toNat = c.toNat + 32 := by
  have hv : (c.toNat + 32).isValidChar := by
    constructor
    omega
  simp [Char.toLower, h]
  exact char_toNat_ofNat_valid _ hv

theorem uint32_le_iff (a b : UInt32) : (a ≤ b) ↔ a.toNat ≤ b.toNat := by
  simp [UInt32.le_def, BitVec.le_def]
  rfl

theorem isAlphanum_toNat (c : Char) :
    c.isAlphanum = true
      ↔ ((48 ≤ c.toNat ∧ c.toNat ≤ 57) ∨ (65 ≤ c.toNat ∧ c.toNat ≤ 90)
          ∨ (97 ≤ c.toNat ∧ c.toNat ≤ 122)) := by
  simp [Char.isAlphanum, Char.isAlpha, Char.isUpper, Char.isLower, Char.isDigit,
    uint32_le_iff, Char.toNat, UInt32.size]
  omega

theorem isDigit_toNat (c : Char) :
    c.isDigit = true ↔ (48 ≤ c.toNat ∧ c.toNat ≤ 57) := by
  simp [Char.isDigit, uint32_le_iff, Char.toNat, UInt32.size]

theorem isWordChar_toLower (c : Char) (h : isWordChar c = true) :
    isWordChar (Char.toLower c) = true := by
  by_cases hc : 65 ≤ c.toNat ∧ c.toNat ≤ 90
  · have h2 := toNat_toLower_of_upper c hc
    simp [isWordChar]
    left
    rw [isAlphanum_toNat, h2]
    omega
  · rw [toLower_eq_of_not_upper c hc]
    exact h

theorem toLower_idem (c : Char) : Char.toLower (Char.toLower c) = Char.toLower c := by
  by_cases hc : 65 ≤ c.toNat ∧ c.toNat ≤ 90
  · have h2 := toNat_toLower_of_upper c hc
    apply toLower_eq_of_not_upper
    omega
  · rw [toLower_eq_of_not_upper c hc, toLower_eq_of_not_upper c hc]

theorem isDigit_toLower (c : Char) : (Char.toLower c).isDigit = c.isDigit := by
  by_cases hc : 65 ≤ c.toNat ∧ c.toNat ≤ 90
  · have h2 := toNat_toLower_of_upper c hc
    have ha : (Char.toLower c).isDigit = false := by
      rw [Bool.eq_false_iff]
      intro hd
      rw [isDigit_toNat, h2] at hd
      omega
    have hb : c.isDigit = false := by
      rw [Bool.eq_false_iff]
      intro hd
      rw [isDigit_toNat] at hd
      omega
    rw [ha, hb]
  · rw [toLower_eq_of_not_upper c hc]

theorem toLower_eq_apos (c : Char) (h : Char.toLower c = apos) : c = apos := by
  by_cases hc : 65 ≤ c.toNat ∧ c.toNat ≤ 90
  · have h2 := toNat_toLower_of_upper c hc
    have h39 : (Char.toLower c).toNat = 39 := by rw [h]; rfl
    omega
  · rw [toLower_eq_of_not_upper c hc] at h
    exact h

theorem toLower_apos : Char.toLower apos = apos := by decide

theorem toLower_space : Char.toLower ' ' = ' ' := by decide

theorem isTokChar_toLower (c : Char) (h : isTokChar c = true) :
    isTokChar (Char.toLower c) = true := by
  unfold isTokChar at h ⊢
  rcases Bool.or_eq_true_iff.mp h with hw | ha
  · rw [isWordChar_toLower c hw]
    simp
  · have : c = apos := by
      rw [beq_iff_eq] at ha
      exact ha
    subst this
    rw [toLower_apos]
    simp

/-! ### Tokenizer lemmas -/

theorem takeWhile_all_append (p : Char → Bool) :
    ∀ l₁ l₂ : List Char, (∀ a ∈ l₁, p a = true) →
      (l₁ ++ l₂).takeWhile p = l₁ ++ l₂.takeWhile p
  | [], l₂, _ => by simp
  | a :: l₁, l₂, h => by
    have ha : p a = true := h a (by simp)
    have ih := takeWhile_all_append p l₁ l₂ (fun x hx => h x (by simp [hx]))
    simp [List.takeWhile_cons, ha, ih]

theorem dropWhile_all_append (p : Char → Bool) :
    ∀ l₁ l₂ : List Char, (∀ a ∈ l₁, p a = true) →
      (l₁ ++ l₂).dropWhile p = l₂.dropWhile p
  | [], l₂, _ => by simp
  | a :: l₁, l₂, h => by
    have ha : p a = true := h a (by simp)
    have ih := dropWhile_all_append p l₁ l₂ (fun x hx => h x (by simp [hx]))
    simp [List.dropWhile_cons, ha, ih]

theorem takeWhile_all (p : Char → Bool) (l : List Char) (h : ∀ a ∈ l, p a = true) :
    l.takeWhile p = l := by
  have := takeWhile_all_append p l [] h
  simpa using this

theorem dropWhile_all (p : Char → Bool) (l : List Char) (h : ∀ a ∈ l, p a = true) :
    l.dropWhile p = [] := by
  have := dropWhile_all_append p l [] h
  simpa using this

theorem findallAux_false_nil : findallAux false [] [] = [] := rfl

theorem findallAux_true_nil (acc : List Char) :
    findallAux true acc [] = [acc.reverse] := rfl

theorem findallAux_false_cons (acc : List Char) (c : Char) (rest : List Char) :
    findallAux false acc (c :: rest)
      = if isWordChar c then findallAux true [c] rest
        else findallAux false [] rest := rfl

theorem findallAux_true_cons (acc : List Char) (c : Char) (rest : List Char) :
    findallAux true acc (c :: rest)
      = if isTokChar c then findallAux true (c :: acc) rest
        else acc.reverse :: findallAux false [] rest := rfl

theorem findall_nil : findall [] = [] := rfl

theorem findallAux_true_eq :
    ∀ l acc : List Char,
      findallAux true acc l
        = (acc.reverse ++ l.takeWhile isTokChar) :: findall (l.dropWhile isTokChar)
  | [], acc => by
    rw [findallAux_true_nil]
    simp [findall_nil]
  | c :: rest, acc => by
    rw [findallAux_true_cons]
    by_cases hc : isTokChar c = true
    · rw [if_pos hc, findallAux_true_eq rest (c :: acc)]
      rw [List.takeWhile_cons_of_pos hc, List.dropWhile_cons_of_pos hc]
      simp
    · have hcf : isTokChar c = false := by
        rw [Bool.eq_false_iff]
        exact hc
      have hw : isWordChar c = false := by
        rw [Bool.eq_false_iff]
        intro hb
        rw [Bool.eq_false_iff] at hcf
        apply hcf
        unfold isTokChar
        rw [hb]
        simp
      rw [if_neg hc]
      rw [List.takeWhile_cons_of_neg (by simp [hcf]), List.dropWhile_cons_of_neg (by simp [hcf])]
      have hr : findall (c :: rest) = findallAux false [] rest := by
        unfold findall
        rw [findallAux_false_cons, if_neg (by simp [hw])]
      rw [hr]
      simp

theorem findall_cons (c : Char) (l : List Char) :
    findall (c :: l)
      = if isWordChar c = true then
          (c :: l.takeWhile isTokChar) :: findall (l.dropWhile isTokChar)
        else findall l := by
  unfold findall
  rw [findallAux_false_cons]
  by_cases hc : isWordChar c = true
  · rw [if_pos hc, if_pos hc, findallAux_true_eq l [c]]
    simp
    rfl
  · rw [if_neg hc, if_neg hc]

theorem goodToken_findall : ∀ l : List Char, ∀ w ∈ findall l, goodToken w
  | [] => by simp [findall_nil]
  | c :: rest => by
    rw [findall_cons]
    by_cases hc : isWordChar c = true
    · rw [if_pos hc]
      intro w hw
      rcases List.mem_cons.mp hw with rfl | hmem
      · exact ⟨c, _, rfl, hc, fun x hx => List.mem_takeWhile_imp hx⟩
      · exact goodToken_findall (rest.dropWhile isTokChar) w hmem
    · rw [if_neg hc]
      exact goodToken_findall rest
termination_by l => l.length
decreasing_by
  · simpa using Nat.lt_succ_of_le (List.dropWhile_sublist isTokChar).length_le
  · simp

/-! ### Possessive stripping and lowercasing lemmas -/

theorem list_concat2_cases (w : List Char) :
    w = [] ∨ (∃ x, w = [x]) ∨ (∃ u x y, w = u ++ [x, y]) := by
  rcases List.eq_nil_or_concat w with rfl | ⟨u1, y, rfl⟩
  · left
    rfl
  · rcases List.eq_nil_or_concat u1 with rfl | ⟨u2, x, rfl⟩
    · right
      left
      exact ⟨y, rfl⟩
    · right
      right
      exact ⟨u2, x, y, by simp⟩

theorem endsPossessive_nil : endsPossessive [] = false := rfl

theorem endsPossessive_single (x : Char) : endsPossessive [x] = false := rfl

theorem endsPossessive_concat2 (u : List Char) (x y : Char) :
    endsPossessive (u ++ [x, y]) = (Char.toLower y == 's' && Char.toLower x == apos) := by
  unfold endsPossessive
  rw [List.map_append, List.reverse_append]
  simp

theorem stripPossessive_of_not (w : List Char) (h : endsPossessive w = false) :
    stripPossessive w = w := by
  unfold stripPossessive
  rw [if_neg (by simp [h])]

theorem goodToken_strip (w : List Char) (h : goodToken w) :
    goodToken (stripPossessive w) := by
  unfold stripPossessive
  by_cases hp : endsPossessive w = true
  · rw [if_pos hp]
    rcases list_concat2_cases w with rfl | ⟨x, rfl⟩ | ⟨u, x, y, rfl⟩
    · rw [endsPossessive_nil] at hp
      exact absurd hp (by simp)
    · rw [endsPossessive_single] at hp
      exact absurd hp (by simp)
    · rw [endsPossessive_concat2] at hp
      simp only [Bool.and_eq_true, beq_iff_eq] at hp
      have hxa : x = apos := toLower_eq_apos x hp.2
      have hlen : (u ++ [x, y]).length - 2 = u.length := by simp
      rw [hlen, List.take_left' rfl]
      rcases h with ⟨c, t, heq, hc, ht⟩
      rcases u with _ | ⟨c0, u'⟩
      · simp at heq
        have hcx : c = apos := by
          rw [← heq.1]
          exact hxa
        rw [hcx] at hc
        exact absurd hc (by decide)
      · have heq2 : c0 :: (u' ++ [x, y]) = c :: t := by simpa using heq
        injection heq2 with h1 h2
        refine ⟨c0, u', rfl, ?_, ?_⟩
        · rw [h1]
          exact hc
        · intro z hz
          apply ht
          rw [← h2]
          simp [hz]
  · rw [if_neg hp]
    exact h

theorem goodToken_map_toLower (w : List Char) (h : goodToken w) :
    goodToken (w.map Char.toLower) := by
  rcases h with ⟨c, t, rfl, hc, ht⟩
  refine ⟨Char.toLower c, t.map Char.toLower, by simp, isWordChar_toLower c hc, ?_⟩
  intro x hx
  rcases List.mem_map.mp hx with ⟨y, hy, rfl⟩
  exact isTokChar_toLower y (ht y hy)

theorem pyIsDigit_map_toLower (w : List Char) :
    pyIsDigit (w.map Char.toLower) = pyIsDigit w := by
  cases w with
  | nil => rfl
  | cons c t =>
    unfold pyIsDigit
    have hcomp : Char.isDigit ∘ Char.toLower = Char.isDigit := funext isDigit_toLower
    simp [List.all_map, hcomp, isDigit_toLower]

theorem intercalate_single_token (w : List Char) : List.intercalate [' '] [w] = w := by
  simp [List.intercalate]

theorem intercalate_cons2 (w v : List Char) (vs : List (List Char)) :
    List.intercalate [' '] (w :: v :: vs)
      = w ++ ' ' :: List.intercalate [' '] (v :: vs) := by
  simp [List.intercalate]

theorem map_toLower_intercalate :
    ∀ vs : List (List Char),
      (List.intercalate [' '] vs).map Char.toLower
        = List.intercalate [' '] (vs.map (List.map Char.toLower))
  | [] => by simp [List.intercalate]
  | [w] => by simp [intercalate_single_token]
  | w :: v :: vs => by
    have ih := map_toLower_intercalate (v :: vs)
    rw [intercalate_cons2, List.map_append, List.map_cons, List.map_cons, List.map_cons,
      intercalate_cons2, toLower_space, ih, List.map_cons]

theorem findall_intercalate :
    ∀ vs : List (List Char), (∀ w ∈ vs, goodToken w) →
      findall (List.intercalate [' '] vs) = vs
  | [], _ => rfl
  | [w], h => by
    rw [intercalate_single_token]
    rcases h w (by simp) with ⟨c, t, rfl, hc, ht⟩
    rw [findall_cons, if_pos hc, takeWhile_all _ t ht, dropWhile_all _ t ht, findall_nil]
  | w :: v :: vs, h => by
    rw [intercalate_cons2]
    rcases h w (by simp) with ⟨c, t, rfl, hc, ht⟩
    have hsp : isTokChar ' ' = false := by decide
    have hw : isWordChar ' ' = false := by decide
    rw [List.cons_append, findall_cons, if_pos hc]
    rw [takeWhile_all_append _ t _ ht, List.takeWhile_cons_of_neg (by simp [hsp]),
      List.append_nil]
    rw [dropWhile_all_append _ t _ ht, List.dropWhile_cons_of_neg (by simp [hsp])]
    rw [findall_cons, if_neg (by simp [hw])]
    rw [findall_intercalate (v :: vs) (fun x hx => h x (by simp [hx]))]

/-! ### The normalizer characterization and claims C5, C6 -/

theorem preprocess_eq_spec : ∀ t : List Char, preprocess_text t = preprocessSpec t := by
  intro t
  unfold preprocess_text preprocessSpec normTokens
  exact map_toLower_intercalate _

theorem normTokens_good (t : List Char) : ∀ w ∈ normTokens t, goodToken w := by
  intro w hw
  unfold normTokens at hw
  rcases List.mem_map.mp hw with ⟨w1, hw1, rfl⟩
  rcases List.mem_map.mp (List.mem_filter.mp hw1).1 with ⟨w0, hw0, rfl⟩
  exact goodToken_map_toLower _ (goodToken_strip _ (goodToken_findall _ _ hw0))

theorem findall_preprocess (t : List Char) :
    findall (preprocess_text t) = normTokens t := by
  rw [preprocess_eq_spec]
  unfold preprocessSpec
  exact findall_intercalate _ (normTokens_good t)

theorem normTokens_not_digit (t : List Char) :
    ∀ w ∈ normTokens t, pyIsDigit w = false := by
  intro w hw
  unfold normTokens at hw
  rcases List.mem_map.mp hw with ⟨w1, hw1, rfl⟩
  rw [pyIsDigit_map_toLower]
  simpa using (List.mem_filter.mp hw1).2

theorem map_eq_self_of_all {α : Type} (f : α → α) :
    ∀ l : List α, (∀ x ∈ l, f x = x) → l.map f = l
  | [], _ => rfl
  | x :: xs, h => by
    rw [List.map_cons, h x (by simp),
      map_eq_self_of_all f xs (fun y hy => h y (by simp [hy]))]

theorem normTokens_map_toLower_self (t : List Char) :
    (normTokens t).map (List.map Char.toLower) = normTokens t := by
  apply map_eq_self_of_all
  intro w hw
  unfold normTokens at hw
  rcases List.mem_map.mp hw with ⟨w1, _, rfl⟩
  rw [List.map_map]
  congr 1
  exact funext toLower_idem

/-- C5 counterexample: a stacked possessive defeats idempotence. The raw
input `dog's's` normalizes to `dog's`, which a second pass strips further to
`dog`. -/
theorem preprocess_not_idempotent :
    preprocess_text (preprocess_text ['d', 'o', 'g', apos, 's', apos, 's'])
      ≠ preprocess_text ['d', 'o', 'g', apos, 's', apos, 's'] := by decide

/-- C5 amended: `preprocess_text` is idempotent on every input whose
normalized output contains no token that still ends in `'s` (which can only
survive one pass when the raw token stacked possessives, as in `dog's's`). -/
theorem preprocess_idempotent_amended (t : List Char)
    (h : ∀ w ∈ findall (preprocess_text t), endsPossessive w = false) :
    preprocess_text (preprocess_text t) = preprocess_text t := by
  have htok : findall (preprocess_text t) = normTokens t := findall_preprocess t
  rw [htok] at h
  rw [preprocess_eq_spec (preprocess_text t)]
  unfold preprocessSpec normTokens
  rw [htok]
  have hstrip : (normTokens t).map stripPossessive = normTokens t :=
    map_eq_self_of_all _ _ (fun w hw => stripPossessive_of_not w (h w hw))
  rw [hstrip]
  have hfilter : (normTokens t).filter (fun w => !pyIsDigit w) = normTokens t :=
    List.filter_eq_self.mpr (fun w hw => by simp [normTokens_not_digit t w hw])
  rw [hfilter, normTokens_map_toLower_self]
  rw [preprocess_eq_spec t]
  rfl

/-- Witness for the amended C5: a mixed-case input with digits and a simple
possessive, whose normalized output has no token ending in `'s`. -/
theorem preprocess_idempotent_amended_witness :
    (∀ w ∈ findall (preprocess_text "The Dogs like 42 cats".data), endsPossessive w = false)
    ∧ preprocess_text (preprocess_text "The Dogs like 42 cats".data)
        = preprocess_text "The Dogs like 42 cats".data :=
  ⟨by decide, preprocess_idempotent_amended "The Dogs like 42 cats".data (by decide)⟩

/-- C6: `preprocess_text` agrees with the specification's description of the
normalizer on every input (regex tokens, trailing `'s` stripped, all-digit
tokens dropped, lowercased, joined by spaces), and in particular sends
`dog's` to `dog` and `42 cats` to `cats`. -/
theorem preprocess_spec_conformance :
    (∀ t : List Char, preprocess_text t = preprocessSpec t)
    ∧ preprocess_text ['d', 'o', 'g', apos, 's'] = ['d', 'o', 'g']
    ∧ preprocess_text "42 cats".data = "cats".data :=
  ⟨preprocess_eq_spec, by decide, by decide⟩
